import Mathlib

/-!
Verification of the `turbulence_models` repository: a shallow embedding of
the two model classes (`HasegawaMimaFourier` in `hasegawa_mima.py` and
`HoleClump` in `hole_clump.py`).  Real arithmetic of the source is modelled
exactly by `ℚ`; complex values by pairs of rationals; numpy arrays by index
functions together with explicit extents; the Python `assert` statements by
`Option`/`Except`-valued functions.
-/

/-- `np.linspace(a, b, n)` at index `i`: `a + i * (b - a) / (n - 1)`.
For `n = 1` numpy returns the single value `a`; here the rational division
by `0` yields `0`, so the formula gives `a` at the only in-range index. -/
def linspace (a b : ℚ) (n : ℕ) (i : ℕ) : ℚ :=
  a + (i : ℚ) * ((b - a) / ((n - 1 : ℕ) : ℚ))

/-- Complex numbers with rational components (exact model of the complex
values appearing in the spectral solver). -/
abbrev CQ : Type := ℚ × ℚ

/-- Complex conjugation `np.conj`. -/
def CQ.conj (z : CQ) : CQ := (z.1, -z.2)

/-- Complex multiplication. -/
def CQ.cmul (a b : CQ) : CQ := (a.1 * b.1 - a.2 * b.2, a.1 * b.2 + a.2 * b.1)

/-- Scaling a complex value by a real (rational) factor. -/
def CQ.smulQ (q : ℚ) (z : CQ) : CQ := (q * z.1, q * z.2)

/-- Dividing a complex value by a real (rational) factor. -/
def CQ.divQ (z : CQ) (q : ℚ) : CQ := (z.1 / q, z.2 / q)

/-! ## `HasegawaMimaFourier` (hasegawa_mima.py) -/

/-- `self.kx = np.linspace(-kmax, kmax, nx)`. -/
def hm_kx (kmax : ℚ) (nx : ℕ) (i : ℕ) : ℚ := linspace (-kmax) kmax nx i

/-- `self.ky = np.linspace(-kmax, kmax, ny)`. -/
def hm_ky (kmax : ℚ) (ny : ℕ) (i : ℕ) : ℚ := linspace (-kmax) kmax ny i

/-- `self.k2 = np.sum(self.k ** 2, axis=-1)`, i.e. `kx[ix]^2 + ky[iy]^2`
(`self.k` stacks the meshgrid of `ky` and `kx`, so its last axis holds the
two wavenumber components at the grid point `(ix, iy)`). -/
def hm_k2 (kmax : ℚ) (nx ny : ℕ) (ix iy : ℕ) : ℚ :=
  hm_kx kmax nx ix ^ 2 + hm_ky kmax ny iy ^ 2

/-- `half_x = (nx - 1) // 2`. -/
def hm_halfx (nx : ℕ) : ℕ := (nx - 1) / 2

/-- `half_y = (ny - 1) // 2`. -/
def hm_halfy (ny : ℕ) : ℕ := (ny - 1) / 2

/-- `self.index_px[ix, iy, j] = jx` where `j = jx * ny + jy`, `jy < ny`:
the partner x-index decoded from the flattened partner index `j`. -/
def hm_indexpx (ny : ℕ) (j : ℕ) : ℕ := j / ny

/-- `self.index_py[ix, iy, j] = jy` where `j = jx * ny + jy`, `jy < ny`. -/
def hm_indexpy (ny : ℕ) (j : ℕ) : ℕ := j % ny

/-- `lx = 3 * half_x - ix - jx`, computed in `ℤ` as numpy does with signed
integers (the value may be negative). -/
def hm_lxZ (nx ny : ℕ) (ix j : ℕ) : ℤ :=
  3 * (hm_halfx nx : ℤ) - (ix : ℤ) - (hm_indexpx ny j : ℤ)

/-- `ly = 3 * half_y - iy - jy`, computed in `ℤ`. -/
def hm_lyZ (ny : ℕ) (iy j : ℕ) : ℤ :=
  3 * (hm_halfy ny : ℤ) - (iy : ℤ) - (hm_indexpy ny j : ℤ)

/-- `valid_x = (0 <= lx) * (lx < nx)`. -/
def hm_validx (nx ny : ℕ) (ix j : ℕ) : Bool :=
  decide (0 ≤ hm_lxZ nx ny ix j ∧ hm_lxZ nx ny ix j < (nx : ℤ))

/-- `valid_y = (0 <= ly) * (ly < ny)`. -/
def hm_validy (ny : ℕ) (iy j : ℕ) : Bool :=
  decide (0 ≤ hm_lyZ ny iy j ∧ hm_lyZ ny iy j < (ny : ℤ))

/-- `self.index_qx[ix, iy, j] = np.where(valid_x, lx, 0)` (the stored third
x-index: `lx` when in range, `0` otherwise). -/
def hm_indexqx (nx ny : ℕ) (ix j : ℕ) : ℕ :=
  if hm_validx nx ny ix j then (hm_lxZ nx ny ix j).toNat else 0

/-- `self.index_qy[ix, iy, j] = np.where(valid_y, ly, 0)`. -/
def hm_indexqy (ny : ℕ) (iy j : ℕ) : ℕ :=
  if hm_validy ny iy j then (hm_lyZ ny iy j).toNat else 0

/-- `self.mat[ix, iy, j] = np.where(valid_x * valid_y,
(kx[jx] * qy - ky[jy] * qx) * q2, 0.0)` with `qx = kx[lx']`, `qy = ky[ly']`,
`q2 = k2[lx', ly']` taken at the clamped indices `lx' = where(valid_x, lx, 0)`,
`ly' = where(valid_y, ly, 0)` (i.e. at `index_qx`, `index_qy`). -/
def hm_mat (kmax : ℚ) (nx ny : ℕ) (ix iy j : ℕ) : ℚ :=
  if hm_validx nx ny ix j && hm_validy ny iy j then
    (hm_kx kmax nx (hm_indexpx ny j) * hm_ky kmax ny (hm_indexqy ny iy j)
      - hm_ky kmax ny (hm_indexpy ny j) * hm_kx kmax nx (hm_indexqx nx ny ix j))
    * hm_k2 kmax nx ny (hm_indexqx nx ny ix j) (hm_indexqy ny iy j)
  else 0

/-- `kxsum = np.where(valid_x * valid_y, kx + self.kx[jx] + qx, 0)` — the
masked triad sum checked by the sanity `assert` in `_setup`. -/
def hm_kxsum (kmax : ℚ) (nx ny : ℕ) (ix iy j : ℕ) : ℚ :=
  if hm_validx nx ny ix j && hm_validy ny iy j then
    hm_kx kmax nx ix + hm_kx kmax nx (hm_indexpx ny j)
      + hm_kx kmax nx (hm_indexqx nx ny ix j)
  else 0

/-- `kysum = np.where(valid_x * valid_y, ky + self.ky[jy] + qy, 0)`. -/
def hm_kysum (kmax : ℚ) (nx ny : ℕ) (ix iy j : ℕ) : ℚ :=
  if hm_validx nx ny ix j && hm_validy ny iy j then
    hm_ky kmax ny iy + hm_ky kmax ny (hm_indexpy ny j)
      + hm_ky kmax ny (hm_indexqy ny iy j)
  else 0

/-- Absolute tolerance of `np.allclose(..., 0)` with default arguments:
`atol + rtol * |0| = atol = 1e-8`. -/
def np_atol : ℚ := 1 / 100000000

/-- The two sanity `assert np.allclose(..., 0)` checks of `_setup`, over all
loop iterations `(ix, iy)` and all flattened partner indices `j`. -/
def hm_sanity (kmax : ℚ) (nx ny : ℕ) : Bool :=
  (List.range nx).all (fun ix => (List.range ny).all (fun iy =>
    ((List.range (nx * ny)).all (fun j =>
      decide (|hm_kxsum kmax nx ny ix iy j| ≤ np_atol)))
    && ((List.range (nx * ny)).all (fun j =>
      decide (|hm_kysum kmax nx ny ix iy j| ≤ np_atol)))))

/-- State held by a successfully constructed `HasegawaMimaFourier` object;
the grids and the coupling tensor are the functions above evaluated at these
parameters. -/
structure HMModel where
  kmax : ℚ
  nx : ℕ
  ny : ℕ
deriving DecidableEq

/-- `HasegawaMimaFourier.__init__`: asserts `nx % 2 == 1` and `ny % 2 == 1`,
builds the grids and then runs `_setup`, whose sanity assertions must also
pass; a failing `assert` raises, modelled by `none`. -/
def hm_construct (kmax : ℚ) (nx ny : ℕ) : Option HMModel :=
  if nx % 2 = 1 then
    if ny % 2 = 1 then
      if hm_sanity kmax nx ny then some ⟨kmax, nx, ny⟩ else none
    else none
  else none

/-- The derivative function `dfdt` defined inside
`HasegawaMimaFourier.solve`:
`(-1j * ky * phi + sum_j mat * conj(phi)[index_px, index_py]
  * conj(phi)[index_qx, index_qy]) / (1 + k2)` at grid point `(ix, iy)`. -/
def hm_dfdt (kmax : ℚ) (nx ny : ℕ) (phi : ℕ → ℕ → CQ) (ix iy : ℕ) : CQ :=
  CQ.divQ
    (CQ.cmul ((0 : ℚ), -(hm_ky kmax ny iy)) (phi ix iy)
      + Finset.sum (Finset.range (nx * ny)) (fun j =>
          CQ.smulQ (hm_mat kmax nx ny ix iy j)
            (CQ.cmul (CQ.conj (phi (hm_indexpx ny j) (hm_indexpy ny j)))
              (CQ.conj (phi (hm_indexqx nx ny ix j) (hm_indexqy ny iy j))))))
    (1 + hm_k2 kmax nx ny ix iy)

/-! ## `HoleClump` (hole_clump.py) -/

namespace HC

/-- `eps0 = 8.85418782e-12` (vacuum permittivity), exactly. -/
def eps0 : ℚ := 885418782 / 100000000000000000000

/-- `e = 1.60217662e-19` (elementary charge), exactly. -/
def e : ℚ := 160217662 / 1000000000000000000000000000

/-- `me = 9.10938356e-31` (electron mass), exactly. -/
def me : ℚ := 910938356 / 1000000000000000000000000000000000000000

end HC

/-- Parameters stored by `HoleClump.__init__` (`omega_p`, a square root,
is computed there as well but is never read by any later method and has no
rational value; it is therefore not part of this embedding). -/
structure HCModel where
  xmax : ℚ
  vmax : ℚ
  nx : ℕ
  nv : ℕ
  nu : ℚ
  ne : ℚ
deriving DecidableEq

/-- `self.x = np.linspace(-xmax, xmax, nx)`. -/
def hc_x (m : HCModel) (i : ℕ) : ℚ := linspace (-m.xmax) m.xmax m.nx i

/-- `self.v = np.linspace(-vmax, vmax, nv)`. -/
def hc_v (m : HCModel) (j : ℕ) : ℚ := linspace (-m.vmax) m.vmax m.nv j

/-- `self.dx = np.mean(np.diff(self.x))`: the mean of the `nx - 1`
consecutive differences of the grid. -/
def hc_dx (m : HCModel) : ℚ :=
  (Finset.sum (Finset.range (m.nx - 1)) (fun i => hc_x m (i + 1) - hc_x m i))
    / ((m.nx - 1 : ℕ) : ℚ)

/-- `self.dv = np.mean(np.diff(self.v))`. -/
def hc_dv (m : HCModel) : ℚ :=
  (Finset.sum (Finset.range (m.nv - 1)) (fun j => hc_v m (j + 1) - hc_v m j))
    / ((m.nv - 1 : ℕ) : ℚ)

/-- `coef = e**2 / me / eps0` (computed in `HoleClump.solve`). -/
def hc_coef : ℚ := HC.e ^ 2 / HC.me / HC.eps0

/-- `np.pad(f, [(1, 1), (0, 0)], 'wrap')`: one ghost cell on each side of
the spatial axis, wrapping periodically (row `0` copies row `nx - 1` of `f`,
row `nx + 1` copies row `0`). -/
def hc_fpadx (nx : ℕ) (F : ℕ → ℕ → ℚ) (i j : ℕ) : ℚ :=
  if i = 0 then F (nx - 1) j
  else if i = nx + 1 then F 0 j
  else F (i - 1) j

/-- `np.pad(·, [(0, 0), (1, 1)], 'constant', constant_values=0)` applied to
the wrap-padded array: one zero ghost cell on each side of the velocity
axis.  This is `f_pad` of `HoleClump.solve.dfdt`, shape `(nx+2, nv+2)`. -/
def hc_fpad (nx nv : ℕ) (F : ℕ → ℕ → ℚ) (i j : ℕ) : ℚ :=
  if j = 0 then 0
  else if j = nv + 1 then 0
  else hc_fpadx nx F i (j - 1)

/-- `dfdx = (f_pad[2:, 1:-1] - f_pad[:-2, 1:-1]) / (2 * self.dx)`. -/
def hc_dfdx (m : HCModel) (F : ℕ → ℕ → ℚ) (i j : ℕ) : ℚ :=
  (hc_fpad m.nx m.nv F (i + 2) (j + 1) - hc_fpad m.nx m.nv F i (j + 1))
    / (2 * hc_dx m)

/-- `dfdv = (f_pad[1:-1, 2:] - f_pad[1:-1, :-2]) / (2 * self.dv)`. -/
def hc_dfdv (m : HCModel) (F : ℕ → ℕ → ℚ) (i j : ℕ) : ℚ :=
  (hc_fpad m.nx m.nv F (i + 1) (j + 2) - hc_fpad m.nx m.nv F (i + 1) j)
    / (2 * hc_dv m)

/-- `dfdt = -self.v * dfdx + E * dfdv` (`self.v` broadcasts along the
velocity axis). -/
def hc_dFdt (m : HCModel) (F : ℕ → ℕ → ℚ) (E : ℚ) (i j : ℕ) : ℚ :=
  -(hc_v m j) * hc_dfdx m F i j + E * hc_dfdv m F i j

/-- `dvdt = -E - self.nu * V`. -/
def hc_dVdt (m : HCModel) (V E : ℚ) : ℚ := -E - m.nu * V

/-- `np.sum(f * self.v)`: the elementwise product of the `(nx, nv)` array
`f` with the broadcast velocity grid, summed over all entries. -/
def hc_sumfv (m : HCModel) (F : ℕ → ℕ → ℚ) : ℚ :=
  Finset.sum (Finset.range m.nx) (fun i =>
    Finset.sum (Finset.range m.nv) (fun j => F i j * hc_v m j))

/-- `dEdt = coef * (self.ne * V + np.sum(f * self.v) * self.dv)`. -/
def hc_dEdt (m : HCModel) (F : ℕ → ℕ → ℚ) (V : ℚ) : ℚ :=
  hc_coef * (m.ne * V + hc_sumfv m F * hc_dv m)

/-- The packing step of `HoleClump.solve`:
`np.concatenate([finit.ravel(), [vinit], [einit]])` — the row-major
flattening of the `(nx, nv)` array followed by the two scalars. -/
def hc_pack (nx nv : ℕ) (F : ℕ → ℕ → ℚ) (V E : ℚ) : List ℚ :=
  ((List.range nx).flatMap (fun i => (List.range nv).map (fun j => F i j)))
    ++ [V, E]

/-- `HoleClump._encode` (without time axis), distribution part:
`F = f[:nx * nv].reshape(nx, nv)`, so entry `(i, j)` is the flat entry
`i * nv + j`. -/
def hc_decodeF (nv : ℕ) (flat : List ℚ) (i j : ℕ) : ℚ :=
  flat.getD (i * nv + j) 0

/-- `HoleClump._encode`, bulk-velocity part: `V = f[nx * nv]`. -/
def hc_decodeV (nx nv : ℕ) (flat : List ℚ) : ℚ := flat.getD (nx * nv) 0

/-- `HoleClump._encode`, field part: `E = f[nx * nv + 1]`. -/
def hc_decodeE (nx nv : ℕ) (flat : List ℚ) : ℚ := flat.getD (nx * nv + 1) 0

/-- A 2-d float array together with its shape, as passed for `finit`. -/
structure Arr2 where
  rows : ℕ
  cols : ℕ
  data : ℕ → ℕ → ℚ

/-- Entry of `HoleClump.solve`: `assert finit.shape == (self.nx, self.nv)`
and then the packing of the initial state handed to the integrator (the
integrator itself is the external black-box collaborator). -/
def hc_solve_entry (m : HCModel) (finit : Arr2) (vinit einit : ℚ) :
    Except String (List ℚ) :=
  if (finit.rows, finit.cols) = (m.nx, m.nv) then
    Except.ok (hc_pack m.nx m.nv finit.data vinit einit)
  else
    Except.error "assert finit.shape == (self.nx, self.nv)"

/-! ## `to_xarray` (both models) -/

/-- A value stored in an `xarray` dataset entry. -/
inductive XrVal where
  | carr : (ℕ → ℕ → ℕ → CQ) → XrVal
  | rarr : (ℕ → ℕ → ℕ → ℚ) → XrVal
  | rvec : (ℕ → ℚ) → XrVal
  | ival : ℤ → XrVal
  | sval : String → XrVal
  | bval : Bool → XrVal

/-- An `xr.Dataset` as built by the two `to_xarray` methods: data variables
(name, dimension names, value), coordinates (name, values) and dataset-level
attributes. -/
structure Dataset where
  dataVars : List (String × List String × XrVal)
  coords : List (String × List ℚ)
  attrs : List (String × XrVal)

/-- The integrator result record as read by
`HasegawaMimaFourier.to_xarray`: time points `t`, reshaped solution `y`,
and the integrator's status/message/success fields. -/
structure HMResult where
  t : List ℚ
  y : ℕ → ℕ → ℕ → CQ
  status : ℤ
  message : String
  success : Bool

/-- The integrator result record as read by `HoleClump.to_xarray` after the
decode step of `solve`: `f`, `V`, `E` trajectories plus the integrator
fields. -/
structure HCResult where
  t : List ℚ
  f : ℕ → ℕ → ℕ → ℚ
  V : ℕ → ℚ
  E : ℕ → ℚ
  status : ℤ
  message : String
  success : Bool

/-- The model's `kx` grid as a list, `self.kx`. -/
def hm_kxList (m : HMModel) : List ℚ :=
  (List.range m.nx).map (hm_kx m.kmax m.nx)

/-- The model's `ky` grid as a list, `self.ky`. -/
def hm_kyList (m : HMModel) : List ℚ :=
  (List.range m.ny).map (hm_ky m.kmax m.ny)

/-- `HasegawaMimaFourier.to_xarray(result)`: builds
`xr.Dataset({"phi": (("kx","ky","time"), result["y"]), "status": ...,
"message": ..., "success": ...}, coords={"kx": self.kx, "ky": self.ky,
"time": result["t"]}, attrs={})`.  The method only reads `result`, so the
returned pair carries the unchanged record alongside the dataset. -/
def hm_to_xarray (m : HMModel) (r : HMResult) : Dataset × HMResult :=
  (⟨[("phi", (["kx", "ky", "time"], XrVal.carr r.y)),
     ("status", ([], XrVal.ival r.status)),
     ("message", ([], XrVal.sval r.message)),
     ("success", ([], XrVal.bval r.success))],
    [("kx", hm_kxList m), ("ky", hm_kyList m), ("time", r.t)],
    []⟩, r)

/-- The model's `x` grid as a list, `self.x`. -/
def hc_xList (m : HCModel) : List ℚ := (List.range m.nx).map (hc_x m)

/-- The model's `v` grid as a list, `self.v`. -/
def hc_vList (m : HCModel) : List ℚ := (List.range m.nv).map (hc_v m)

/-- `HoleClump.to_xarray(result)`: builds
`xr.Dataset({"F": (("x","v","time"), result["f"]), "V": ("time", ...),
"E": ("time", ...), "status": ..., "message": ..., "success": ...},
coords={"x": self.x, "v": self.v, "time": result["t"]}, attrs={})`. -/
def hc_to_xarray (m : HCModel) (r : HCResult) : Dataset × HCResult :=
  (⟨[("F", (["x", "v", "time"], XrVal.rarr r.f)),
     ("V", (["time"], XrVal.rvec r.V)),
     ("E", (["time"], XrVal.rvec r.E)),
     ("status", ([], XrVal.ival r.status)),
     ("message", ([], XrVal.sval r.message)),
     ("success", ([], XrVal.bval r.success))],
    [("x", hc_xList m), ("v", hc_vList m), ("time", r.t)],
    []⟩, r)

/-- Concrete model used in closed statements below. -/
def hmM0 : HMModel := ⟨1, 3, 3⟩

/-- Concrete integrator result used in closed statements below. -/
def hmR0 : HMResult := ⟨[0], fun _ _ _ => ((0 : ℚ), (0 : ℚ)), 0, "ok", true⟩

/-! ## Helper lemmas -/

/-- Three equally spaced grid values whose indices sum to `3 * (n-1)/2` sum
to zero, for an odd grid length `n ≥ 3`. -/
lemma linspace_triad (kmax : ℚ) (n a b c : ℕ) (hodd : n % 2 = 1)
    (h3 : 3 ≤ n) (habc : a + b + c = 3 * ((n - 1) / 2)) :
    linspace (-kmax) kmax n a + linspace (-kmax) kmax n b
      + linspace (-kmax) kmax n c = 0 := by
  have h2 : n - 1 = 2 * ((n - 1) / 2) := by omega
  have hpos : 1 ≤ (n - 1) / 2 := by omega
  have hhne : (((n - 1) / 2 : ℕ) : ℚ) ≠ 0 := Nat.cast_ne_zero.mpr (by omega)
  have hcast : ((n - 1 : ℕ) : ℚ) = 2 * (((n - 1) / 2 : ℕ) : ℚ) := by
    exact_mod_cast congrArg (fun t : ℕ => (t : ℚ)) h2
  have hkey : (a : ℚ) + b + c = 3 * (((n - 1) / 2 : ℕ) : ℚ) := by
    exact_mod_cast congrArg (fun t : ℕ => (t : ℚ)) habc
  unfold linspace
  rw [hcast]
  have expand :
      -kmax + (a : ℚ) * ((kmax - -kmax) / (2 * (((n - 1) / 2 : ℕ) : ℚ)))
        + (-kmax + (b : ℚ) * ((kmax - -kmax) / (2 * (((n - 1) / 2 : ℕ) : ℚ))))
        + (-kmax + (c : ℚ) * ((kmax - -kmax) / (2 * (((n - 1) / 2 : ℕ) : ℚ))))
      = -(3 * kmax) + ((a : ℚ) + b + c)
          * ((2 * kmax) / (2 * (((n - 1) / 2 : ℕ) : ℚ))) := by ring
  rw [expand, hkey]
  field_simp
  ring

/-- For a valid partner, the three x-indices of the triad sum to
`3 * half_x`. -/
lemma hm_valid_sumx (nx ny ix j : ℕ) (h : hm_validx nx ny ix j = true) :
    ix + hm_indexpx ny j + (hm_lxZ nx ny ix j).toNat = 3 * hm_halfx nx := by
  simp only [hm_validx, decide_eq_true_eq] at h
  unfold hm_lxZ at *
  omega

/-- For a valid partner, the three y-indices of the triad sum to
`3 * half_y`. -/
lemma hm_valid_sumy (ny iy j : ℕ) (h : hm_validy ny iy j = true) :
    iy + hm_indexpy ny j + (hm_lyZ ny iy j).toNat = 3 * hm_halfy ny := by
  simp only [hm_validy, decide_eq_true_eq] at h
  unfold hm_lyZ at *
  omega

/-- On an odd grid of length at least `3`, every masked x-triad sum checked
by the sanity assertion vanishes exactly. -/
lemma hm_kxsum_eq_zero (kmax : ℚ) (nx ny ix iy j : ℕ)
    (hodd : nx % 2 = 1) (h3 : 3 ≤ nx) :
    hm_kxsum kmax nx ny ix iy j = 0 := by
  unfold hm_kxsum
  split_ifs with hv
  · obtain ⟨hvx, hvy⟩ := Bool.and_eq_true _ _ |>.mp hv
    have hq : hm_indexqx nx ny ix j = (hm_lxZ nx ny ix j).toNat := by
      unfold hm_indexqx; rw [hvx]; rfl
    rw [hq]
    exact linspace_triad kmax nx ix (hm_indexpx ny j) (hm_lxZ nx ny ix j).toNat
      hodd h3 (hm_valid_sumx nx ny ix j hvx)
  · rfl

/-- On an odd grid of length at least `3`, every masked y-triad sum checked
by the sanity assertion vanishes exactly. -/
lemma hm_kysum_eq_zero (kmax : ℚ) (nx ny ix iy j : ℕ)
    (hodd : ny % 2 = 1) (h3 : 3 ≤ ny) :
    hm_kysum kmax nx ny ix iy j = 0 := by
  unfold hm_kysum
  split_ifs with hv
  · obtain ⟨hvx, hvy⟩ := Bool.and_eq_true _ _ |>.mp hv
    have hq : hm_indexqy ny iy j = (hm_lyZ ny iy j).toNat := by
      unfold hm_indexqy; rw [hvy]; rfl
    rw [hq]
    exact linspace_triad kmax ny iy (hm_indexpy ny j) (hm_lyZ ny iy j).toNat
      hodd h3 (hm_valid_sumy ny iy j hvy)
  · rfl

/-- For odd `nx, ny ≥ 3` the sanity assertions of `_setup` always pass. -/
lemma hm_sanity_true (kmax : ℚ) (nx ny : ℕ)
    (hx : nx % 2 = 1) (hy : ny % 2 = 1) (h3x : 3 ≤ nx) (h3y : 3 ≤ ny) :
    hm_sanity kmax nx ny = true := by
  unfold hm_sanity
  simp only [List.all_eq_true, List.mem_range, Bool.and_eq_true,
    decide_eq_true_eq]
  intro ix _ iy _
  constructor
  · intro j _
    rw [hm_kxsum_eq_zero kmax nx ny ix iy j hx h3x]
    norm_num [np_atol]
  · intro j _
    rw [hm_kysum_eq_zero kmax nx ny ix iy j hy h3y]
    norm_num [np_atol]

/-- On the degenerate grid `nx = 1`, `ny = 3` every value of `kx` is `-k`,
so the masked x-triad sums all equal `-3k` (or `0`); the sanity check passes
exactly when that is within `np.allclose` tolerance. -/
lemma hm_sanity_degenerate (k : ℚ) (hk : |(-(3 * k))| ≤ np_atol) :
    hm_sanity k 1 3 = true := by
  have hkx1 : ∀ i : ℕ, hm_kx k 1 i = -k := by
    intro i; unfold hm_kx linspace; norm_num
  unfold hm_sanity
  simp only [List.all_eq_true, List.mem_range, Bool.and_eq_true,
    decide_eq_true_eq]
  intro ix _ iy _
  constructor
  · intro j _
    unfold hm_kxsum
    split_ifs with hv
    · rw [hkx1, hkx1, hkx1]
      have harg : -k + -k + -k = -(3 * k) := by ring
      rw [harg]
      exact hk
    · norm_num [np_atol]
  · intro j _
    rw [hm_kysum_eq_zero k 1 3 ix iy j rfl (by norm_num)]
    norm_num [np_atol]

/-- Kernel-reduction helper for small `Int.toNat` literals. -/
lemma int_toNat_two : (2 : ℤ).toNat = 2 := rfl

/-! ## Claim theorems -/

/-- Claim C1 (amended): for every odd `nx ≥ 3`, odd `ny ≥ 3` and `kmax > 0`,
every nonzero entry `mat[ix, iy, j]` of the coupling tensor corresponds to a
triad of grid wavevectors whose components sum to zero exactly:
`kx[ix] + kx[jx] + kx[lx] = 0` and `ky[iy] + ky[jy] + ky[ly] = 0`, where
`jx, jy` are decoded from `j` and `lx = 3*half_x - ix - jx`,
`ly = 3*half_y - iy - jy`. -/
theorem hm_triad_closure (kmax : ℚ) (nx ny ix iy j : ℕ)
    (hx : nx % 2 = 1) (hy : ny % 2 = 1) (hk : 0 < kmax)
    (h3x : 3 ≤ nx) (h3y : 3 ≤ ny)
    (hix : ix < nx) (hiy : iy < ny) (hj : j < nx * ny)
    (hmat : hm_mat kmax nx ny ix iy j ≠ 0) :
    hm_kx kmax nx ix + hm_kx kmax nx (hm_indexpx ny j)
        + hm_kx kmax nx ((hm_lxZ nx ny ix j).toNat) = 0
    ∧ hm_ky kmax ny iy + hm_ky kmax ny (hm_indexpy ny j)
        + hm_ky kmax ny ((hm_lyZ ny iy j).toNat) = 0 := by
  have hv : (hm_validx nx ny ix j && hm_validy ny iy j) = true := by
    by_contra hcon
    exact hmat (by unfold hm_mat; rw [if_neg hcon])
  obtain ⟨hvx, hvy⟩ := Bool.and_eq_true _ _ |>.mp hv
  constructor
  · exact linspace_triad kmax nx ix (hm_indexpx ny j) (hm_lxZ nx ny ix j).toNat
      hx h3x (hm_valid_sumx nx ny ix j hvx)
  · exact linspace_triad kmax ny iy (hm_indexpy ny j) (hm_lyZ ny iy j).toNat
      hy h3y (hm_valid_sumy ny iy j hvy)

/-- Witness for the amended claim C1: at `kmax = 1`, `nx = ny = 3`, the
entry `(ix, iy, j) = (0, 0, 5)` of the tensor is nonzero and its triad
closes exactly. -/
theorem hm_triad_closure_witness :
    hm_mat 1 3 3 0 0 5 ≠ 0
    ∧ (hm_kx 1 3 0 + hm_kx 1 3 (hm_indexpx 3 5)
        + hm_kx 1 3 ((hm_lxZ 3 3 0 5).toNat) = 0
      ∧ hm_ky 1 3 0 + hm_ky 1 3 (hm_indexpy 3 5)
        + hm_ky 1 3 ((hm_lyZ 3 0 5).toNat) = 0) :=
  ⟨by
    norm_num [hm_mat, hm_validx, hm_validy, hm_lxZ, hm_lyZ, hm_halfx,
      hm_halfy, hm_indexpx, hm_indexpy, hm_indexqx, hm_indexqy, hm_kx,
      hm_ky, hm_k2, linspace, int_toNat_two],
   hm_triad_closure 1 3 3 0 0 5 rfl rfl (by norm_num) (by norm_num)
     (by norm_num) (by norm_num) (by norm_num) (by norm_num)
     (by
       norm_num [hm_mat, hm_validx, hm_validy, hm_lxZ, hm_lyZ, hm_halfx,
         hm_halfy, hm_indexpx, hm_indexpy, hm_indexqx, hm_indexqy, hm_kx,
         hm_ky, hm_k2, linspace, int_toNat_two])⟩

/-- Counterexample to claim C1 as stated: at the degenerate odd grid
`nx = 1`, `ny = 3` with `kmax = 1e-9 > 0`, the constructor succeeds (its
`np.allclose` sanity check passes, `3e-9 ≤ 1e-8`), yet the nonzero coupling
entry `mat[0, 0, 1]` has x-triad sum `-3e-9`, which is not zero and exceeds
the `1e-9` tolerance the spec offers as an example. -/
theorem hm_triad_closure_cx :
    hm_construct (1 / 1000000000) 1 3 = some ⟨1 / 1000000000, 1, 3⟩
    ∧ hm_mat (1 / 1000000000) 1 3 0 0 1 ≠ 0
    ∧ hm_kx (1 / 1000000000) 1 0 + hm_kx (1 / 1000000000) 1 (hm_indexpx 3 1)
        + hm_kx (1 / 1000000000) 1 ((hm_lxZ 1 3 0 1).toNat)
      = -(3 / 1000000000)
    ∧ ¬ (|hm_kx (1 / 1000000000) 1 0
          + hm_kx (1 / 1000000000) 1 (hm_indexpx 3 1)
          + hm_kx (1 / 1000000000) 1 ((hm_lxZ 1 3 0 1).toNat)|
        ≤ 1 / 1000000000) := by
  have hkx1 : ∀ i : ℕ, hm_kx (1 / 1000000000) 1 i = -(1 / 1000000000) := by
    intro i; unfold hm_kx linspace; norm_num
  have hsum : hm_kx (1 / 1000000000) 1 0
      + hm_kx (1 / 1000000000) 1 (hm_indexpx 3 1)
      + hm_kx (1 / 1000000000) 1 ((hm_lxZ 1 3 0 1).toNat)
      = -(3 / 1000000000) := by
    rw [hkx1, hkx1, hkx1]; norm_num
  refine ⟨?_, ?_, hsum, ?_⟩
  · unfold hm_construct
    rw [if_pos rfl, if_pos rfl,
      if_pos (hm_sanity_degenerate (1 / 1000000000) (by
        rw [abs_neg, abs_of_pos (by norm_num)]
        norm_num [np_atol]))]
  · norm_num [hm_mat, hm_validx, hm_validy, hm_lxZ, hm_lyZ, hm_halfx,
      hm_halfy, hm_indexpx, hm_indexpy, hm_indexqx, hm_indexqy, hm_kx,
      hm_ky, hm_k2, linspace, int_toNat_two]
  · rw [hsum, abs_neg, abs_of_pos (by norm_num)]
    norm_num

/-- Claim C6 (amended): construction fails (assertion) whenever `nx` or
`ny` is even — the parity guard is the first check, before any grid or
tensor computation — and for odd `nx, ny ≥ 3` construction succeeds, with
`kx`, `ky` linearly spaced over `[-kmax, kmax]`: the endpoints are
`-kmax` and `kmax`, and consecutive values differ by the constant step
`(kmax - (-kmax)) / (n - 1)`. -/
theorem hm_construct_parity (kmax : ℚ) (nx ny : ℕ) :
    ((nx % 2 = 0 ∨ ny % 2 = 0) → hm_construct kmax nx ny = none)
    ∧ (nx % 2 = 1 → ny % 2 = 1 → 3 ≤ nx → 3 ≤ ny →
        hm_construct kmax nx ny = some ⟨kmax, nx, ny⟩
        ∧ hm_kx kmax nx 0 = -kmax
        ∧ hm_kx kmax nx (nx - 1) = kmax
        ∧ (∀ i, i + 1 < nx → hm_kx kmax nx (i + 1) - hm_kx kmax nx i
              = (kmax - -kmax) / ((nx - 1 : ℕ) : ℚ))
        ∧ hm_ky kmax ny 0 = -kmax
        ∧ hm_ky kmax ny (ny - 1) = kmax
        ∧ (∀ i, i + 1 < ny → hm_ky kmax ny (i + 1) - hm_ky kmax ny i
              = (kmax - -kmax) / ((ny - 1 : ℕ) : ℚ))) := by
  constructor
  · intro h
    unfold hm_construct
    split_ifs with h1 h2 h3 <;> first | rfl | omega
  · intro hx hy h3x h3y
    refine ⟨?_, ?_, ?_, ?_, ?_, ?_, ?_⟩
    · unfold hm_construct
      rw [if_pos hx, if_pos hy, if_pos (hm_sanity_true kmax nx ny hx hy h3x h3y)]
    · unfold hm_kx linspace; push_cast; ring
    · have h1 : (1 : ℕ) ≤ nx := by omega
      have hne2 : ((nx : ℚ) - 1) ≠ 0 := by
        have h3 : (3 : ℚ) ≤ (nx : ℚ) := by exact_mod_cast h3x
        intro hz
        have : (nx : ℚ) = 1 := by linarith
        linarith
      unfold hm_kx linspace
      rw [Nat.cast_sub h1]
      push_cast
      field_simp
    · intro i hi
      unfold hm_kx linspace
      push_cast
      ring
    · unfold hm_ky linspace; push_cast; ring
    · have h1 : (1 : ℕ) ≤ ny := by omega
      have hne2 : ((ny : ℚ) - 1) ≠ 0 := by
        have h3 : (3 : ℚ) ≤ (ny : ℚ) := by exact_mod_cast h3y
        intro hz
        have : (ny : ℚ) = 1 := by linarith
        linarith
      unfold hm_ky linspace
      rw [Nat.cast_sub h1]
      push_cast
      field_simp
    · intro i hi
      unfold hm_ky linspace
      push_cast
      ring

/-- Witness for the amended claim C6: even `nx = 4` is rejected, and the
odd grid `nx = ny = 3` with `kmax = 2` constructs successfully with
`kx[0] = -2`. -/
theorem hm_construct_parity_witness :
    hm_construct 2 4 3 = none ∧ hm_construct 2 3 3 = some ⟨2, 3, 3⟩
    ∧ hm_kx 2 3 0 = -2 :=
  ⟨(hm_construct_parity 2 4 3).1 (Or.inl rfl),
   ((hm_construct_parity 2 3 3).2 rfl rfl (by norm_num) (by norm_num)).1,
   ((hm_construct_parity 2 3 3).2 rfl rfl (by norm_num) (by norm_num)).2.1⟩

/-- Counterexample to claim C6 as stated: `nx = 1` and `ny = 3` are both
odd, yet `HasegawaMimaFourier(10, 1, 3)` does not construct — the sanity
assertion inside `_setup` fails (the degenerate one-point grid makes every
valid triad sum `-3 * kmax = -30`, far outside `np.allclose` tolerance). -/
theorem hm_construct_parity_cx :
    (1 % 2 = 1) ∧ (3 % 2 = 1) ∧ hm_construct 10 1 3 = none := by
  refine ⟨rfl, rfl, ?_⟩
  have hfail : ¬ (hm_sanity 10 1 3 = true) := by
    intro h
    unfold hm_sanity at h
    simp only [List.all_eq_true, List.mem_range, Bool.and_eq_true,
      decide_eq_true_eq] at h
    have h1 := (h 0 (by norm_num) 0 (by norm_num)).1 1 (by norm_num)
    have hval : hm_kxsum 10 1 3 0 0 1 = -30 := by
      norm_num [hm_kxsum, hm_validx, hm_validy, hm_lxZ, hm_lyZ, hm_halfx,
        hm_halfy, hm_indexpx, hm_indexpy, hm_indexqx, hm_indexqy, hm_kx,
        linspace]
    rw [hval] at h1
    norm_num [np_atol] at h1
  unfold hm_construct
  rw [if_pos rfl, if_pos rfl, if_neg hfail]


/-- Reindexing a sum over a flattened rectangular index range as an
iterated sum over the two factors. -/
lemma sum_range_mul {M : Type} [AddCommMonoid M] (f : ℕ → M) (n m : ℕ) :
    Finset.sum (Finset.range (n * m)) f
      = Finset.sum (Finset.range n) (fun i =>
          Finset.sum (Finset.range m) (fun k => f (i * m + k))) := by
  induction n with
  | zero => simp
  | succ n ih =>
    have h1 : (n + 1) * m = n * m + m := by ring
    rw [h1, Finset.sum_range_add, ih, Finset.sum_range_succ]

/-- Scaling by a nonzero real factor undoes division by it. -/
lemma CQ_smulQ_divQ (q : ℚ) (z : CQ) (hq : q ≠ 0) :
    CQ.smulQ q (CQ.divQ z q) = z := by
  unfold CQ.smulQ CQ.divQ
  have h1 : q * (z.1 / q) = z.1 := by field_simp
  have h2 : q * (z.2 / q) = z.2 := by field_simp
  rw [h1, h2]

/-- `index_px` recovers the first factor of a flattened pair index. -/
lemma hm_indexpx_pair (ny jx jy : ℕ) (h : jy < ny) :
    hm_indexpx ny (jx * ny + jy) = jx := by
  unfold hm_indexpx
  rw [mul_comm jx ny, Nat.mul_add_div (by omega)]
  simp [Nat.div_eq_of_lt h]

/-- `index_py` recovers the second factor of a flattened pair index. -/
lemma hm_indexpy_pair (ny jx jy : ℕ) (h : jy < ny) :
    hm_indexpy ny (jx * ny + jy) = jy := by
  unfold hm_indexpy
  rw [mul_comm jx ny, Nat.mul_add_mod]
  exact Nat.mod_eq_of_lt h

/-- Claim C2: the derivative used by `solve` is exactly
`(-i*ky*phi + Σ_j mat[ix,iy,j] * conj(phi)[p] * conj(phi)[q]) / (1 + k2)`
with the sum running over all grid points — stated by multiplying back by
the divisor `1 + k2`, which is at least `1` at every grid point (in
particular at `k2 = 0`), so the division is always well defined. -/
theorem hm_dfdt_formula (kmax : ℚ) (nx ny : ℕ) (phi : ℕ → ℕ → CQ)
    (ix iy : ℕ) :
    1 ≤ 1 + hm_k2 kmax nx ny ix iy
    ∧ CQ.smulQ (1 + hm_k2 kmax nx ny ix iy) (hm_dfdt kmax nx ny phi ix iy)
      = CQ.cmul ((0 : ℚ), -(hm_ky kmax ny iy)) (phi ix iy)
        + Finset.sum (Finset.range nx) (fun jx =>
            Finset.sum (Finset.range ny) (fun jy =>
              CQ.smulQ (hm_mat kmax nx ny ix iy (jx * ny + jy))
                (CQ.cmul (CQ.conj (phi jx jy))
                  (CQ.conj (phi (hm_indexqx nx ny ix (jx * ny + jy))
                    (hm_indexqy ny iy (jx * ny + jy))))))) := by
  have hk2 : 0 ≤ hm_k2 kmax nx ny ix iy := by
    unfold hm_k2; positivity
  have hpos : (0 : ℚ) < 1 + hm_k2 kmax nx ny ix iy := by linarith
  constructor
  · linarith
  · unfold hm_dfdt
    rw [CQ_smulQ_divQ _ _ (ne_of_gt hpos)]
    congr 1
    rw [sum_range_mul]
    refine Finset.sum_congr rfl (fun jx _ => ?_)
    refine Finset.sum_congr rfl (fun jy hjy => ?_)
    rw [hm_indexpx_pair ny jx jy (Finset.mem_range.mp hjy),
      hm_indexpy_pair ny jx jy (Finset.mem_range.mp hjy)]

/-- Claim C8: whenever the third-wavevector index `lx` (resp. `ly`) falls
outside `[0, nx)` (resp. `[0, ny)`), the constructor stores a zero coupling
coefficient, zero in the corresponding stored index, and the masked sanity
sums are zero as well, so invalid triads contribute exactly zero to the
convolution sum and trip no assertion; they are not wrapped. -/
theorem hm_invalid_triad (kmax : ℚ) (nx ny ix iy j : ℕ)
    (hix : ix < nx) (hiy : iy < ny) (hj : j < nx * ny) :
    (((hm_lxZ nx ny ix j < 0 ∨ (nx : ℤ) ≤ hm_lxZ nx ny ix j)
        ∨ (hm_lyZ ny iy j < 0 ∨ (ny : ℤ) ≤ hm_lyZ ny iy j)) →
      hm_mat kmax nx ny ix iy j = 0
      ∧ hm_kxsum kmax nx ny ix iy j = 0
      ∧ hm_kysum kmax nx ny ix iy j = 0
      ∧ ∀ z : CQ, CQ.smulQ (hm_mat kmax nx ny ix iy j) z = ((0 : ℚ), (0 : ℚ)))
    ∧ ((hm_lxZ nx ny ix j < 0 ∨ (nx : ℤ) ≤ hm_lxZ nx ny ix j) →
        hm_indexqx nx ny ix j = 0)
    ∧ ((hm_lyZ ny iy j < 0 ∨ (ny : ℤ) ≤ hm_lyZ ny iy j) →
        hm_indexqy ny iy j = 0) := by
  refine ⟨?_, ?_, ?_⟩
  · intro h
    have hvfalse : (hm_validx nx ny ix j && hm_validy ny iy j) = false := by
      rcases h with h | h
      · have hx : hm_validx nx ny ix j = false := by
          simp only [hm_validx, decide_eq_false_iff_not]
          intro hc
          rcases h with h | h <;> omega
        simp [hx]
      · have hy : hm_validy ny iy j = false := by
          simp only [hm_validy, decide_eq_false_iff_not]
          intro hc
          rcases h with h | h <;> omega
        simp [hy]
    have hmat : hm_mat kmax nx ny ix iy j = 0 := by
      simp [hm_mat, hvfalse]
    refine ⟨hmat, by simp [hm_kxsum, hvfalse], by simp [hm_kysum, hvfalse], ?_⟩
    intro z
    rw [hmat]
    unfold CQ.smulQ
    norm_num
  · intro h
    have hx : hm_validx nx ny ix j = false := by
      simp only [hm_validx, decide_eq_false_iff_not]
      intro hc
      rcases h with h | h <;> omega
    simp [hm_indexqx, hx]
  · intro h
    have hy : hm_validy ny iy j = false := by
      simp only [hm_validy, decide_eq_false_iff_not]
      intro hc
      rcases h with h | h <;> omega
    simp [hm_indexqy, hy]

/-- Witness for claim C8: at `kmax = 1`, `nx = ny = 3`, entry
`(ix, iy, j) = (0, 0, 0)` has `lx = ly = 3` out of range; its coupling
coefficient and stored third indices are zero. -/
theorem hm_invalid_triad_witness :
    hm_mat 1 3 3 0 0 0 = 0 ∧ hm_indexqx 3 3 0 0 = 0 ∧ hm_indexqy 3 0 0 = 0 :=
  ⟨((hm_invalid_triad 1 3 3 0 0 0 (by norm_num) (by norm_num)
      (by norm_num)).1 (Or.inl (Or.inr (by decide)))).1,
   (hm_invalid_triad 1 3 3 0 0 0 (by norm_num) (by norm_num)
      (by norm_num)).2.1 (Or.inr (by decide)),
   (hm_invalid_triad 1 3 3 0 0 0 (by norm_num) (by norm_num)
      (by norm_num)).2.2 (Or.inr (by decide))⟩

/-- Pointwise congruence for a two-argument grid function. -/
lemma grid_congr (F : ℕ → ℕ → ℚ) {a b c d : ℕ} (h1 : a = c) (h2 : b = d) :
    F a b = F c d := by
  rw [h1, h2]

/-- Claim C3: the distribution-derivative slot of the `HoleClump` derivative
is the centered-difference advection form: the padded-array stencil of the
source equals, at every interior grid point, the periodic-wrap difference in
`x` and the zero-boundary difference in `v`, and
`dF/dt = -v[j]*dF/dx + E*dF/dv`. -/
theorem hc_dFdt_stencil (m : HCModel) (F : ℕ → ℕ → ℚ) (E : ℚ) (i j : ℕ)
    (hi : i < m.nx) (hj : j < m.nv) :
    hc_dFdt m F E i j
      = -(hc_v m j) * ((F ((i + 1) % m.nx) j - F ((i + m.nx - 1) % m.nx) j)
            / (2 * hc_dx m))
        + E * (((if j + 1 < m.nv then F i (j + 1) else 0)
            - (if j = 0 then 0 else F i (j - 1))) / (2 * hc_dv m)) := by
  have hx1 : hc_fpad m.nx m.nv F (i + 2) (j + 1) = F ((i + 1) % m.nx) j := by
    unfold hc_fpad hc_fpadx
    rw [if_neg (by omega : ¬ (j + 1 = 0)),
      if_neg (by omega : ¬ (j + 1 = m.nv + 1)),
      if_neg (by omega : ¬ (i + 2 = 0))]
    by_cases hcase : i + 2 = m.nx + 1
    · rw [if_pos hcase]
      refine grid_congr F ?_ (by omega)
      rw [show i + 1 = m.nx from by omega, Nat.mod_self]
    · rw [if_neg hcase]
      refine grid_congr F ?_ (by omega)
      rw [Nat.mod_eq_of_lt (by omega : i + 1 < m.nx)]
      omega
  have hx0 : hc_fpad m.nx m.nv F i (j + 1) = F ((i + m.nx - 1) % m.nx) j := by
    unfold hc_fpad hc_fpadx
    rw [if_neg (by omega : ¬ (j + 1 = 0)),
      if_neg (by omega : ¬ (j + 1 = m.nv + 1))]
    by_cases hcase : i = 0
    · rw [if_pos hcase]
      refine grid_congr F ?_ (by omega)
      subst hcase
      rw [Nat.mod_eq_of_lt (by omega : 0 + m.nx - 1 < m.nx)]
      omega
    · rw [if_neg hcase, if_neg (by omega : ¬ (i = m.nx + 1))]
      refine grid_congr F ?_ (by omega)
      rw [show i + m.nx - 1 = (i - 1) + m.nx from by omega,
        Nat.add_mod_right, Nat.mod_eq_of_lt (by omega : i - 1 < m.nx)]
  have hv2 : hc_fpad m.nx m.nv F (i + 1) (j + 2)
      = (if j + 1 < m.nv then F i (j + 1) else 0) := by
    unfold hc_fpad hc_fpadx
    rw [if_neg (by omega : ¬ (j + 2 = 0))]
    by_cases hcase : j + 1 = m.nv
    · rw [if_pos (by omega : j + 2 = m.nv + 1),
        if_neg (by omega : ¬ (j + 1 < m.nv))]
    · rw [if_neg (by omega : ¬ (j + 2 = m.nv + 1)),
        if_neg (by omega : ¬ (i + 1 = 0)),
        if_neg (by omega : ¬ (i + 1 = m.nx + 1)),
        if_pos (by omega : j + 1 < m.nv)]
      exact grid_congr F (by omega) (by omega)
  have hv0 : hc_fpad m.nx m.nv F (i + 1) j
      = (if j = 0 then 0 else F i (j - 1)) := by
    unfold hc_fpad hc_fpadx
    by_cases hcase : j = 0
    · rw [if_pos hcase, if_pos hcase]
    · rw [if_neg hcase, if_neg hcase, if_neg (by omega : ¬ (j = m.nv + 1)),
        if_neg (by omega : ¬ (i + 1 = 0)),
        if_neg (by omega : ¬ (i + 1 = m.nx + 1))]
      exact grid_congr F (by omega) (by omega)
  unfold hc_dFdt hc_dfdx hc_dfdv
  rw [hx1, hx0, hv2, hv0]

/-- Witness for claim C3 at the concrete model
`HoleClump(xmax=1, vmax=1, nx=2, nv=2, nu=1, ne=1)`, grid point `(0, 0)`. -/
theorem hc_dFdt_stencil_witness :
    hc_dFdt ⟨1, 1, 2, 2, 1, 1⟩ (fun i j => (i : ℚ) * 10 + j) 5 0 0
      = -(hc_v ⟨1, 1, 2, 2, 1, 1⟩ 0)
          * ((((1 : ℚ) * 10 + 0) - ((1 : ℚ) * 10 + 0))
              / (2 * hc_dx ⟨1, 1, 2, 2, 1, 1⟩))
        + 5 * ((((0 : ℚ) * 10 + 1) - 0) / (2 * hc_dv ⟨1, 1, 2, 2, 1, 1⟩)) := by
  have h := hc_dFdt_stencil ⟨1, 1, 2, 2, 1, 1⟩
    (fun i j => (i : ℚ) * 10 + j) 5 0 0 (by norm_num) (by norm_num)
  rw [h]
  norm_num

/-- Claim C4: the two scalar slots of the `HoleClump` derivative are
`dV/dt = -E - nu*V` and
`dE/dt = (e^2/(me*eps0)) * (ne*V + (Σ (F·v)) * dv)`, where `Σ (F·v)` is the
sum of the elementwise product of `F` with the broadcast velocity grid over
all entries of the `(nx, nv)` array (as the spec glosses its `Σ_x` notation
by `np.sum(f * self.v)`). -/
theorem hc_scalar_derivs (m : HCModel) (F : ℕ → ℕ → ℚ) (V E : ℚ) :
    hc_dVdt m V E = -E - m.nu * V
    ∧ hc_dEdt m F V
      = HC.e ^ 2 / (HC.me * HC.eps0)
        * (m.ne * V
          + (Finset.sum (Finset.range m.nx ×ˢ Finset.range m.nv)
              (fun p => F p.1 p.2 * hc_v m p.2)) * hc_dv m) := by
  refine ⟨rfl, ?_⟩
  unfold hc_dEdt hc_coef hc_sumfv
  rw [Finset.sum_product, div_div]

/-- Claim C7: `HoleClump.solve` rejects any `finit` whose shape differs
from `(nx, nv)` with an assertion failure at call entry, before the state
is packed or the integrator invoked. -/
theorem hc_solve_shape_guard (m : HCModel) (finit : Arr2) (vinit einit : ℚ)
    (h : (finit.rows, finit.cols) ≠ (m.nx, m.nv)) :
    hc_solve_entry m finit vinit einit
      = Except.error "assert finit.shape == (self.nx, self.nv)" := by
  unfold hc_solve_entry
  rw [if_neg h]

/-- Witness for claim C7: a `1 × 2` initial array is rejected by the
`2 × 2` model. -/
theorem hc_solve_shape_guard_witness :
    hc_solve_entry ⟨10, 11, 2, 2, 1, 1⟩ ⟨1, 2, fun _ _ => 0⟩ 0 0
      = Except.error "assert finit.shape == (self.nx, self.nv)" :=
  hc_solve_shape_guard ⟨10, 11, 2, 2, 1, 1⟩ ⟨1, 2, fun _ _ => 0⟩ 0 0
    (by decide)

/-- Length of the row-major flattening of an `nx × nv` array. -/
lemma hc_flat_length (nx nv : ℕ) (F : ℕ → ℕ → ℚ) :
    ((List.range nx).flatMap
      (fun i => (List.range nv).map (fun j => F i j))).length = nx * nv := by
  induction nx with
  | zero => simp
  | succ n ih =>
    rw [List.range_succ, List.flatMap_append, List.length_append, ih]
    simp [Nat.succ_mul]

/-- Entry `i * nv + j` of the row-major flattening is `F i j`. -/
lemma hc_flat_getD (nx nv : ℕ) (F : ℕ → ℕ → ℚ) (i j : ℕ)
    (hi : i < nx) (hj : j < nv) :
    ((List.range nx).flatMap
      (fun i => (List.range nv).map (fun j => F i j))).getD (i * nv + j) 0
      = F i j := by
  induction nx with
  | zero => omega
  | succ n ih =>
    rw [List.range_succ, List.flatMap_append]
    by_cases hcase : i < n
    · rw [List.getD_eq_getElem?_getD,
        List.getElem?_append_left (by
          rw [hc_flat_length]
          calc i * nv + j < i * nv + nv := by omega
            _ = (i + 1) * nv := by ring
            _ ≤ n * nv := Nat.mul_le_mul_right nv (by omega)),
        ← List.getD_eq_getElem?_getD]
      exact ih hcase
    · have hie : i = n := by omega
      subst hie
      rw [List.getD_eq_getElem?_getD,
        List.getElem?_append_right (by rw [hc_flat_length]; omega)]
      rw [hc_flat_length]
      simp only [List.flatMap_singleton, Nat.add_sub_cancel_left,
        List.getElem?_map, List.getElem?_range hj]
      rfl

/-- Claim C5: decoding with `_encode` the flat vector packed by `solve`
recovers `F`, `V` and `E` exactly; the packed vector has length
`nx * nv + 2` and carries `V` then `E` in its last two slots. -/
theorem hc_pack_roundtrip (nx nv : ℕ) (F : ℕ → ℕ → ℚ) (V E : ℚ) :
    (hc_pack nx nv F V E).length = nx * nv + 2
    ∧ hc_decodeV nx nv (hc_pack nx nv F V E) = V
    ∧ hc_decodeE nx nv (hc_pack nx nv F V E) = E
    ∧ (∀ i j, i < nx → j < nv →
        hc_decodeF nv (hc_pack nx nv F V E) i j = F i j)
    ∧ (hc_pack nx nv F V E).getD ((hc_pack nx nv F V E).length - 2) 0 = V
    ∧ (hc_pack nx nv F V E).getD ((hc_pack nx nv F V E).length - 1) 0 = E := by
  have hlen : (hc_pack nx nv F V E).length = nx * nv + 2 := by
    unfold hc_pack
    rw [List.length_append, hc_flat_length]
    rfl
  have hV : hc_decodeV nx nv (hc_pack nx nv F V E) = V := by
    unfold hc_decodeV hc_pack
    rw [List.getD_eq_getElem?_getD,
      List.getElem?_append_right (le_of_eq (hc_flat_length nx nv F)),
      hc_flat_length]
    simp
  have hE : hc_decodeE nx nv (hc_pack nx nv F V E) = E := by
    unfold hc_decodeE hc_pack
    rw [List.getD_eq_getElem?_getD,
      List.getElem?_append_right (by rw [hc_flat_length]; omega),
      hc_flat_length]
    simp
  refine ⟨hlen, hV, hE, ?_, ?_, ?_⟩
  · intro i j hi hj
    unfold hc_decodeF hc_pack
    rw [List.getD_eq_getElem?_getD,
      List.getElem?_append_left (by
        rw [hc_flat_length]
        calc i * nv + j < i * nv + nv := by omega
          _ = (i + 1) * nv := by ring
          _ ≤ nx * nv := Nat.mul_le_mul_right nv (by omega)),
      ← List.getD_eq_getElem?_getD]
    exact hc_flat_getD nx nv F i j hi hj
  · rw [hlen, Nat.add_sub_cancel]
    exact hV
  · rw [hlen, show nx * nv + 2 - 1 = nx * nv + 1 from by omega]
    exact hE

/-- Witness for claim C5 at `nx = 2`, `nv = 3`, concrete `F`, `V = 7`,
`E = 9`. -/
theorem hc_pack_roundtrip_witness :
    (hc_pack 2 3 (fun i j => (i : ℚ) * 10 + j) 7 9).length = 8
    ∧ hc_decodeV 2 3 (hc_pack 2 3 (fun i j => (i : ℚ) * 10 + j) 7 9) = 7
    ∧ hc_decodeE 2 3 (hc_pack 2 3 (fun i j => (i : ℚ) * 10 + j) 7 9) = 9
    ∧ hc_decodeF 3 (hc_pack 2 3 (fun i j => (i : ℚ) * 10 + j) 7 9) 1 2
      = (1 : ℚ) * 10 + 2 :=
  ⟨(hc_pack_roundtrip 2 3 (fun i j => (i : ℚ) * 10 + j) 7 9).1,
   (hc_pack_roundtrip 2 3 (fun i j => (i : ℚ) * 10 + j) 7 9).2.1,
   (hc_pack_roundtrip 2 3 (fun i j => (i : ℚ) * 10 + j) 7 9).2.2.1,
   (hc_pack_roundtrip 2 3 (fun i j => (i : ℚ) * 10 + j) 7 9).2.2.2.1 1 2
     (by norm_num) (by norm_num)⟩

/-- Counterexample to claim C9 as stated: at a concrete model and result,
the dataset built by `to_xarray` has an empty attribute dictionary
(`attrs={}` in the source), so the integrator's status/message/success are
not dataset-level attributes; they appear among the data variables. -/
theorem to_xarray_attrs_cx :
    (hm_to_xarray hmM0 hmR0).1.attrs = []
    ∧ ((hm_to_xarray hmM0 hmR0).1.dataVars.map (fun p => p.1))
      = ["phi", "status", "message", "success"] :=
  ⟨rfl, rfl⟩

/-- Claim C9 (amended): for every result record, `to_xarray` of either
model attaches the integrator's status, message and success fields as
dimensionless data variables (not as attributes — the attribute dictionary
is empty), together with the named dimensions `kx, ky, time` (spectral
model) or `x, v, time` (phase-space model) and their coordinate values. -/
theorem to_xarray_statusvars (m : HMModel) (r : HMResult)
    (m2 : HCModel) (r2 : HCResult) :
    (hm_to_xarray m r).1.attrs = []
    ∧ ((hm_to_xarray m r).1.dataVars.map (fun p => (p.1, p.2.1)))
      = [("phi", ["kx", "ky", "time"]), ("status", []),
         ("message", []), ("success", [])]
    ∧ ((hm_to_xarray m r).1.coords.map (fun p => p.1)) = ["kx", "ky", "time"]
    ∧ (hm_to_xarray m r).1.coords
      = [("kx", hm_kxList m), ("ky", hm_kyList m), ("time", r.t)]
    ∧ (hc_to_xarray m2 r2).1.attrs = []
    ∧ ((hc_to_xarray m2 r2).1.dataVars.map (fun p => (p.1, p.2.1)))
      = [("F", ["x", "v", "time"]), ("V", ["time"]), ("E", ["time"]),
         ("status", []), ("message", []), ("success", [])]
    ∧ ((hc_to_xarray m2 r2).1.coords.map (fun p => p.1)) = ["x", "v", "time"]
    ∧ (hc_to_xarray m2 r2).1.coords
      = [("x", hc_xList m2), ("v", hc_vList m2), ("time", r2.t)] :=
  ⟨rfl, rfl, rfl, rfl, rfl, rfl, rfl, rfl⟩

/-- Claim C10: `to_xarray` of either model leaves its input result record
unchanged, and the coordinate arrays of the returned dataset are exactly
the model's grids — the same lists, of length `nx`/`ny` (resp. `nx`/`nv`). -/
theorem to_xarray_pure_coords (m : HMModel) (r : HMResult)
    (m2 : HCModel) (r2 : HCResult) :
    (hm_to_xarray m r).2 = r
    ∧ (hm_to_xarray m r).1.coords
      = [("kx", hm_kxList m), ("ky", hm_kyList m), ("time", r.t)]
    ∧ (hm_kxList m).length = m.nx
    ∧ (hm_kyList m).length = m.ny
    ∧ (hc_to_xarray m2 r2).2 = r2
    ∧ (hc_to_xarray m2 r2).1.coords
      = [("x", hc_xList m2), ("v", hc_vList m2), ("time", r2.t)]
    ∧ (hc_xList m2).length = m2.nx
    ∧ (hc_vList m2).length = m2.nv := by
  refine ⟨rfl, rfl, ?_, ?_, rfl, rfl, ?_, ?_⟩ <;>
    simp [hm_kxList, hm_kyList, hc_xList, hc_vList]
